import Mathlib

/-!
Verification of the audio synthesis assembly pipeline of the Finance
Podcast application (services/geminiService.ts).

JavaScript strings are modelled as lists of characters (`List Char`);
`String.prototype.length` becomes `List.length`.  Audio samples, which the
code stores in 32-bit float channel arrays, are modelled as rationals:
every value the pipeline produces (an int16 divided by 32768, a clamped
sample multiplied by 32767 or 32768) is exactly representable in the
floating-point formats the code uses, so the rational model is exact.
Byte sequences are lists of naturals below 256.
-/

/-! ## Text normalizer (cleanScript)

Source:
  export function cleanScript(text: string): string {
    if (!text) return '';
    return text.replace(/\*\*/g, '').split('\n')
      .filter(line => /^[^：:]+[：:]/.test(line.trim()))
      .join('\n');
  }
-/

/-- One global replacement pass of the regex /\*\*/g by the empty string:
scan left to right, delete each non-overlapping pair of asterisks. -/
def stripBold : List Char → List Char
  | [] => []
  | [c] => [c]
  | c1 :: c2 :: rest =>
    if c1 = '*' ∧ c2 = '*' then stripBold rest
    else c1 :: stripBold (c2 :: rest)

/-- JavaScript String.prototype.split('\n'): always returns at least one
piece; an empty string yields one empty piece. -/
def splitNl : List Char → List (List Char)
  | [] => [[]]
  | c :: rest =>
    if c = '\n' then [] :: splitNl rest
    else
      match splitNl rest with
      | [] => [[c]]
      | p :: ps => (c :: p) :: ps

/-- JavaScript Array.prototype.join('\n'). -/
def joinNl : List (List Char) → List Char
  | [] => []
  | [p] => p
  | p :: ps => p ++ '\n' :: joinNl ps

/-- The set of characters removed by JavaScript String.prototype.trim
(WhiteSpace and LineTerminator code points). -/
def isJsSpace (c : Char) : Bool :=
  let n := c.toNat
  n = 0x9 || n = 0xA || n = 0xB || n = 0xC || n = 0xD || n = 0x20 ||
  n = 0xA0 || n = 0x1680 || (0x2000 ≤ n && n ≤ 0x200A) ||
  n = 0x2028 || n = 0x2029 || n = 0x202F || n = 0x205F || n = 0x3000 || n = 0xFEFF

/-- JavaScript String.prototype.trim. -/
def jsTrim (l : List Char) : List Char :=
  ((l.dropWhile isJsSpace).reverse.dropWhile isJsSpace).reverse

/-- A colon in the sense of the character class [：:] (full-width or ASCII). -/
def isColon (c : Char) : Bool := c = ':' || c = '：'

/-- The test /^[^：:]+[：:]/.test(l): one or more leading non-colon
characters followed by a colon, i.e. the first character is not a colon
and some later character is a colon. -/
def speakerLine : List Char → Bool
  | [] => false
  | c :: rest => !(isColon c) && rest.any isColon

/-- cleanScript from services/geminiService.ts (lines 7-12): strip the
markdown emphasis marker, split into lines, keep only the lines whose
trimmed form starts with a speaker label and a colon, rejoin. -/
def cleanScriptL (t : List Char) : List Char :=
  if t = [] then []
  else joinNl ((splitNl (stripBold t)).filter fun l => speakerLine (jsTrim l))

/-! ## Segmenter (synthesizePodcast, lines 319-327)

Source:
  const lines = cleaned.split('\n');
  const chunks: string[] = [];
  let currentChunk = "";
  for (const line of lines) {
    if ((currentChunk + line).length > 800) { chunks.push(currentChunk); currentChunk = line + "\n"; }
    else { currentChunk += line + "\n"; }
  }
  if (currentChunk) chunks.push(currentChunk);
-/

/-- The character budget of one synthesis segment. -/
def chunkBudget : Nat := 800

/-- The segmentation loop: first argument is the remaining lines, second
argument the current chunk accumulator; the final non-empty accumulator is
emitted after the loop. -/
def segLoop : List (List Char) → List Char → List (List Char)
  | [], current => if current = [] then [] else [current]
  | line :: rest, current =>
    if chunkBudget < (current ++ line).length then
      current :: segLoop rest (line ++ ['\n'])
    else
      segLoop rest (current ++ line ++ ['\n'])

/-- The segmenter of synthesizePodcast applied to the line list of the
cleaned script. -/
def segmentScript (lines : List (List Char)) : List (List Char) :=
  segLoop lines []

/-! ## Per-segment synthesis, decoding and assembly
(synthesizePodcast, lines 329-371)

Source:
  const buffers: AudioBuffer[] = [];
  for (let i = 0; i < chunks.length; i++) {
    try {
      const response = await ai.models.generateContent({ ... });
      const base64Audio = response.candidates?.[0]?.content?.parts?.[0]?.inlineData?.data;
      if (base64Audio) {
        const binaryString = atob(base64Audio);
        const bytes = new Uint8Array(binaryString.length);
        for (let j = 0; j < binaryString.length; j++) bytes[j] = binaryString.charCodeAt(j);
        const dataInt16 = new Int16Array(bytes.buffer);
        if (dataInt16.length > 0) {
          const buffer = audioContext.createBuffer(1, dataInt16.length, 24000);
          const channelData = buffer.getChannelData(0);
          for (let j = 0; j < dataInt16.length; j++) channelData[j] = dataInt16[j] / 32768.0;
          buffers.push(buffer);
        }
      }
    } catch (err) { console.warn(...); }
  }
  if (buffers.length === 0) throw new Error("音频合成失败，请重试。");
  const totalLength = buffers.reduce((acc, b) => acc + b.length, 0);
  const final = audioContext.createBuffer(1, totalLength, 24000);
  let offset = 0;
  for (const b of buffers) { final.getChannelData(0).set(b.getChannelData(0), offset); offset += b.length; }
  return final;
-/

/-- The observable outcome of one synthesis call: the call throws (network
error, invalid base64, Int16Array construction over an odd-length buffer —
all caught by the surrounding try), the response carries no inline data
payload, or it carries a payload that decodes to the given byte list. -/
inductive SegOutcome where
  | throwErr : SegOutcome
  | noPayload : SegOutcome
  | payload : List Nat → SegOutcome
deriving DecidableEq

/-- Reinterpret one little-endian byte pair as a signed 16-bit integer,
as Int16Array does over the decoded byte buffer. -/
def byteToInt16 (lo hi : Nat) : Int :=
  let v := lo + 256 * hi
  if v < 32768 then (v : Int) else (v : Int) - 65536

/-- The per-segment sample decoding loop: each consecutive little-endian
byte pair becomes the float sample int16 / 32768.0. -/
def bytesToSamples : List Nat → List ℚ
  | lo :: hi :: rest => ((byteToInt16 lo hi : ℚ) / 32768) :: bytesToSamples rest
  | _ => []

/-- What one iteration of the synthesis loop contributes: `none` when the
segment is skipped (thrown error, missing payload, odd byte length — the
Int16Array constructor throws on an odd-length buffer and the try/catch
skips the segment — or an empty sample array), otherwise the decoded
sample list that is pushed onto `buffers`. -/
def decodeSegment : SegOutcome → Option (List ℚ)
  | SegOutcome.throwErr => none
  | SegOutcome.noPayload => none
  | SegOutcome.payload bytes =>
    if bytes.length % 2 ≠ 0 then none
    else
      let samples := bytesToSamples bytes
      if samples = [] then none else some samples

/-- The buffers array after the synthesis loop: successful segments in
order, failed segments skipped. -/
def collectBuffers : List SegOutcome → List (List ℚ)
  | [] => []
  | o :: rest =>
    match decodeSegment o with
    | some samples => samples :: collectBuffers rest
    | none => collectBuffers rest

/-- TypedArray.prototype.set: copy `src` into `dst` starting at `offset`. -/
def writeAt (dst src : List ℚ) (offset : Nat) : List ℚ :=
  dst.take offset ++ src ++ dst.drop (offset + src.length)

/-- The final assembly: allocate a zero-filled buffer of the summed length
and copy each decoded segment buffer at its running offset. -/
def assembleTrack (bufs : List (List ℚ)) : List ℚ :=
  let totalLength := bufs.foldl (fun acc b => acc + b.length) 0
  (bufs.foldl
    (fun st b => (writeAt st.1 b st.2, st.2 + b.length))
    (List.replicate totalLength (0 : ℚ), 0)).1

/-- synthesizePodcast after segmentation, as a function of the per-segment
call outcomes: fatal error when no segment decoded, otherwise the
assembled mono track. -/
def runSynthesis (outcomes : List SegOutcome) : Except String (List ℚ) :=
  let buffers := collectBuffers outcomes
  if buffers = [] then Except.error "音频合成失败，请重试。"
  else Except.ok (assembleTrack buffers)

/-! ## WAV container encoder (bufferToWav, lines 573-623)

Source:
  const numOfChan = buffer.numberOfChannels;
  const length = buffer.length * numOfChan * 2 + 44;
  ...
  setUint32(0x46464952); setUint32(length - 8); setUint32(0x45564157);
  setUint32(0x20746d66); setUint32(16); setUint16(1); setUint16(numOfChan);
  setUint32(buffer.sampleRate); setUint32(buffer.sampleRate * 2 * numOfChan);
  setUint16(numOfChan * 2); setUint16(16);
  setUint32(0x61746164); setUint32(length - pos - 4);   // pos = 40 here
  for (i = 0; i < buffer.numberOfChannels; i++) channels.push(buffer.getChannelData(i));
  while (pos < length) {
    for (i = 0; i < numOfChan; i++) {
      sample = Math.max(-1, Math.min(1, channels[i][offset]));
      sample = (0.5 + sample < 0 ? sample * 32768 : sample * 32767) | 0;
      view.setInt16(pos, sample, true);
      pos += 2;
    }
    offset++;
  }
-/

/-- The Web Audio AudioBuffer as bufferToWav consumes it: channel count,
frame count, sample rate and one sample list per channel. -/
structure AudioBuffer where
  numberOfChannels : Nat
  length : Nat
  sampleRate : Nat
  channelsData : List (List ℚ)
deriving DecidableEq

/-- Math.max(-1, Math.min(1, s)). -/
def clampSample (s : ℚ) : ℚ := max (-1) (min 1 s)

/-- The `| 0` coercion on a value already in 32-bit range: truncation
toward zero. -/
def truncToZero (q : ℚ) : Int := if q < 0 then ⌈q⌉ else ⌊q⌋

/-- The sample conversion of bufferToWav: clamp to [-1, 1], then
`(0.5 + sample < 0 ? sample * 32768 : sample * 32767) | 0`.  Note that the
JavaScript expression parses as `(0.5 + sample) < 0`, so the 32768 branch
is taken exactly when the clamped sample is below -0.5. -/
def sampleToInt16 (s0 : ℚ) : Int :=
  let s := clampSample s0
  if 1/2 + s < 0 then truncToZero (s * 32768) else truncToZero (s * 32767)

/-- DataView.setUint16 little-endian: the two bytes of the value. -/
def u16le (v : Nat) : List Nat := [v % 256, v / 256 % 256]

/-- DataView.setUint32 little-endian: the four bytes of the value. -/
def u32le (v : Nat) : List Nat :=
  [v % 256, v / 256 % 256, v / 65536 % 256, v / 16777216 % 256]

/-- DataView.setInt16 little-endian: two's-complement byte pair. -/
def int16le (v : Int) : List Nat := u16le (v % 65536).toNat

/-- The inner channel loop of the data writer: one frame, two bytes per
channel. -/
def wavFrame (chans : List (List ℚ)) (off : Nat) : List Nat :=
  match chans with
  | [] => []
  | ch :: rest => int16le (sampleToInt16 (ch.getD off 0)) ++ wavFrame rest off

/-- The outer while loop of the data writer, starting at frame `off` with
`k` frames left. -/
def wavDataFrom (chans : List (List ℚ)) (off k : Nat) : List Nat :=
  match k with
  | 0 => []
  | Nat.succ k => wavFrame chans off ++ wavDataFrom chans (off + 1) k

/-- The full sample payload of the WAV file. -/
def wavData (chans : List (List ℚ)) (frames : Nat) : List Nat :=
  wavDataFrom chans 0 frames

/-- The byte sequence bufferToWav writes into the ArrayBuffer (the Blob
content): 44-byte RIFF/fmt/data header followed by the interleaved sample
payload. -/
def bufferToWav (b : AudioBuffer) : List Nat :=
  let numOfChan := b.numberOfChannels
  let len := b.length * numOfChan * 2 + 44
  u32le 0x46464952 ++ u32le (len - 8) ++ u32le 0x45564157 ++
  u32le 0x20746d66 ++ u32le 16 ++ u16le 1 ++ u16le numOfChan ++
  u32le b.sampleRate ++ u32le (b.sampleRate * 2 * numOfChan) ++
  u16le (numOfChan * 2) ++ u16le 16 ++
  u32le 0x61746164 ++ u32le (len - 44) ++
  wavData b.channelsData b.length

/-! ## Segmenter lemmas -/

/-- An accumulator already over the budget is always emitted as a segment. -/
theorem seg_mem_self_of_big : ∀ (ls : List (List Char)) (cc : List Char),
    chunkBudget < cc.length → cc ∈ segLoop ls cc
  | [], cc, h => by
    have hne : cc ≠ [] := by
      intro he
      subst he
      simp [chunkBudget] at h
    simp [segLoop, hne]
  | l :: rest, cc, h => by
    have hgt : chunkBudget < (cc ++ l).length := by
      rw [List.length_append]; omega
    simp only [segLoop, if_pos hgt]
    exact List.mem_cons_self _ _

/-- Every oversized input line is emitted, followed by its newline, as its
own segment. -/
theorem seg_mem_line_big : ∀ (ls : List (List Char)) (cc l : List Char),
    l ∈ ls → chunkBudget < l.length → l ++ ['\n'] ∈ segLoop ls cc
  | l0 :: rest, cc, l, hmem, hlen => by
    rcases List.mem_cons.mp hmem with he | hm
    · subst he
      have hgt : chunkBudget < (cc ++ l).length := by
        rw [List.length_append]; omega
      have hbig : chunkBudget < (l ++ ['\n']).length := by
        rw [List.length_append]; simp; omega
      simp only [segLoop, if_pos hgt]
      exact List.mem_cons_of_mem _ (seg_mem_self_of_big rest (l ++ ['\n']) hbig)
    · by_cases hgt : chunkBudget < (cc ++ l0).length
      · simp only [segLoop, if_pos hgt]
        exact List.mem_cons_of_mem _ (seg_mem_line_big rest (l0 ++ ['\n']) l hm hlen)
      · simp only [segLoop, if_neg hgt]
        exact seg_mem_line_big rest (cc ++ l0 ++ ['\n']) l hm hlen

/-- Starting from a non-empty accumulator the loop never emits an empty
segment. -/
theorem seg_no_empty : ∀ (ls : List (List Char)) (cc : List Char),
    cc ≠ [] → [] ∉ segLoop ls cc
  | [], cc, h => by
    simp only [segLoop, if_neg h, List.mem_singleton]
    exact fun he => h he.symm
  | l :: rest, cc, h => by
    by_cases hgt : chunkBudget < (cc ++ l).length
    · simp only [segLoop, if_pos hgt, List.mem_cons, not_or]
      exact ⟨fun he => h he.symm, seg_no_empty rest (l ++ ['\n']) (by simp)⟩
    · simp only [segLoop, if_neg hgt]
      exact seg_no_empty rest (cc ++ l ++ ['\n']) (by simp)

/-- Length invariant of the loop: every emitted segment is within one
character of the budget (the trailing newline) unless it is a single
oversized line together with its newline. -/
theorem seg_bound : ∀ (ls : List (List Char)) (cc : List Char)
    (L : List (List Char)),
    (∀ l ∈ ls, l ∈ L) →
    (cc.length ≤ chunkBudget + 1
      ∨ ∃ l, l ∈ L ∧ cc = l ++ ['\n'] ∧ chunkBudget < l.length) →
    ∀ seg ∈ segLoop ls cc,
      seg.length ≤ chunkBudget + 1
        ∨ ∃ l, l ∈ L ∧ seg = l ++ ['\n'] ∧ chunkBudget < l.length
  | [], cc, L, _, hcc, seg, hseg => by
    by_cases h : cc = []
    · subst h
      simp [segLoop] at hseg
    · simp only [segLoop, if_neg h, List.mem_singleton] at hseg
      subst hseg
      exact hcc
  | l :: rest, cc, L, hsub, hcc, seg, hseg => by
    by_cases hgt : chunkBudget < (cc ++ l).length
    · simp only [segLoop, if_pos hgt, List.mem_cons] at hseg
      rcases hseg with he | hm
      · subst he
        exact hcc
      · refine seg_bound rest (l ++ ['\n']) L
          (fun x hx => hsub x (List.mem_cons_of_mem _ hx)) ?_ seg hm
        by_cases hl : chunkBudget < l.length
        · exact Or.inr ⟨l, hsub l (List.mem_cons_self _ _), rfl, hl⟩
        · left
          rw [List.length_append]
          simp
          omega
    · simp only [segLoop, if_neg hgt] at hseg
      refine seg_bound rest (cc ++ l ++ ['\n']) L
        (fun x hx => hsub x (List.mem_cons_of_mem _ hx)) ?_ seg hseg
      left
      simp only [List.length_append, List.length_singleton, not_lt] at hgt ⊢
      omega

/-- Concatenating the emitted segments recovers the accumulator followed
by every remaining line with its re-inserted newline. -/
theorem seg_join : ∀ (ls : List (List Char)) (cc : List Char),
    (segLoop ls cc).flatten = cc ++ (ls.map (fun l => l ++ ['\n'])).flatten
  | [], cc => by
    by_cases h : cc = [] <;> simp [segLoop, h]
  | l :: rest, cc => by
    by_cases hgt : chunkBudget < (cc ++ l).length
    · simp only [segLoop, if_pos hgt, List.flatten_cons, List.map_cons]
      rw [seg_join rest (l ++ ['\n'])]
    · simp only [segLoop, if_neg hgt, List.map_cons, List.flatten_cons]
      rw [seg_join rest (cc ++ l ++ ['\n'])]
      simp [List.append_assoc]

/-! ## split and join lemmas -/

/-- split('\n') never returns an empty piece list. -/
theorem splitNl_ne_nil : ∀ (x : List Char), splitNl x ≠ []
  | [] => by simp [splitNl]
  | c :: rest => by
    by_cases h : c = '\n'
    · simp [splitNl, h]
    · simp only [splitNl, if_neg h]
      cases hs : splitNl rest <;> simp

/-- No piece produced by split('\n') contains a newline. -/
theorem splitNl_no_newline : ∀ (x p : List Char), p ∈ splitNl x → '\n' ∉ p
  | [], p, hp => by
    simp [splitNl] at hp
    subst hp
    simp
  | c :: rest, p, hp => by
    by_cases h : c = '\n'
    · rw [show splitNl (c :: rest) = [] :: splitNl rest from by simp [splitNl, h]] at hp
      rcases List.mem_cons.mp hp with he | hm
      · subst he; simp
      · exact splitNl_no_newline rest p hm
    · simp only [splitNl, if_neg h] at hp
      cases hs : splitNl rest with
      | nil => exact absurd hs (splitNl_ne_nil rest)
      | cons q qs =>
        rw [hs] at hp
        rcases List.mem_cons.mp hp with he | hm
        · subst he
          intro hin
          rcases List.mem_cons.mp hin with he2 | hm2
          · exact h he2.symm
          · exact splitNl_no_newline rest q (hs ▸ List.mem_cons_self q qs) hm2
        · exact splitNl_no_newline rest p (hs ▸ List.mem_cons_of_mem q hm)

/-- A newline-free string splits into itself. -/
theorem splitNl_single : ∀ (p : List Char), '\n' ∉ p → splitNl p = [p]
  | [], _ => by simp [splitNl]
  | c :: rest, h => by
    have hc : c ≠ '\n' := fun he => h (he ▸ List.mem_cons_self c rest)
    have hr : '\n' ∉ rest := fun hm => h (List.mem_cons_of_mem c hm)
    simp only [splitNl, if_neg hc, splitNl_single rest hr]

/-- Splitting a newline-free piece glued with '\n' onto a remainder peels
off that piece. -/
theorem splitNl_append_nl : ∀ (p l : List Char), '\n' ∉ p →
    splitNl (p ++ '\n' :: l) = p :: splitNl l
  | [], l, _ => by simp [splitNl]
  | c :: p, l, h => by
    have hc : c ≠ '\n' := fun he => h (he ▸ List.mem_cons_self c p)
    have hp : '\n' ∉ p := fun hm => h (List.mem_cons_of_mem c hm)
    show splitNl (c :: (p ++ '\n' :: l)) = (c :: p) :: splitNl l
    rw [splitNl, if_neg hc, splitNl_append_nl p l hp]

/-- join('\n') is a left inverse of split('\n'). -/
theorem joinNl_splitNl : ∀ (x : List Char), joinNl (splitNl x) = x
  | [] => by simp [splitNl, joinNl]
  | c :: rest => by
    have ih := joinNl_splitNl rest
    by_cases h : c = '\n'
    · rw [show splitNl (c :: rest) = [] :: splitNl rest from by simp [splitNl, h]]
      cases hs : splitNl rest with
      | nil => exact absurd hs (splitNl_ne_nil rest)
      | cons q qs =>
        rw [hs] at ih
        simp only [joinNl, List.nil_append]
        rw [ih, h]
    · simp only [splitNl, if_neg h]
      cases hs : splitNl rest with
      | nil => exact absurd hs (splitNl_ne_nil rest)
      | cons q qs =>
        rw [hs] at ih
        cases qs with
        | nil =>
          simp only [joinNl] at ih ⊢
          rw [ih]
        | cons r rs =>
          simp only [joinNl] at ih ⊢
          rw [List.cons_append, ih]

/-- split('\n') is a left inverse of join('\n') on non-empty lists of
newline-free pieces. -/
theorem splitNl_joinNl : ∀ (ps : List (List Char)), ps ≠ [] →
    (∀ p ∈ ps, '\n' ∉ p) → splitNl (joinNl ps) = ps
  | [p], _, hp => by
    simp only [joinNl]
    exact splitNl_single p (hp p (List.mem_singleton_self p))
  | p :: q :: qs, _, hp => by
    simp only [joinNl]
    rw [splitNl_append_nl p _ (hp p (List.mem_cons_self _ _)),
      splitNl_joinNl (q :: qs) (by simp)
        (fun r hr => hp r (List.mem_cons_of_mem p hr))]

/-- Appending a newline to every piece and concatenating is the same as
joining with '\n' and appending one final newline. -/
theorem flatten_map_nl : ∀ (ps : List (List Char)), ps ≠ [] →
    (ps.map (fun l => l ++ ['\n'])).flatten = joinNl ps ++ ['\n']
  | [p], _ => by simp [joinNl]
  | p :: q :: qs, _ => by
    rw [show (List.map (fun l => l ++ ['\n']) (p :: q :: qs)).flatten
        = (p ++ ['\n']) ++ (List.map (fun l => l ++ ['\n']) (q :: qs)).flatten from rfl]
    rw [flatten_map_nl (q :: qs) (by simp)]
    rw [show joinNl (p :: q :: qs) = p ++ '\n' :: joinNl (q :: qs) from rfl]
    simp

/-! ## Claims about the segmenter -/

set_option maxRecDepth 100000 in
/-- C2, refuted as stated: the loop closes the current segment without
checking that it is non-empty, so a first line longer than 800 characters
makes the segmenter emit an empty segment before the oversized line's own
segment. -/
theorem claim_C2_counterexample :
    [] ∈ segmentScript [List.replicate 801 'a']
    ∧ segmentScript [List.replicate 801 'a']
        = [[], List.replicate 801 'a' ++ ['\n']] := by
  constructor <;> decide

/-- C2 (amended): before appending a line the loop closes the current
segment whenever the accumulated text plus the line exceeds the 800
character budget, with no non-emptiness check; consequently an empty
segment is emitted exactly when the first line's own length exceeds 800,
and every line whose own length exceeds 800 is still emitted (with its
trailing newline) as its own oversized segment. -/
theorem claim_C2 (lines : List (List Char)) :
    ([] ∈ segmentScript lines
      ↔ ∃ l ls, lines = l :: ls ∧ chunkBudget < l.length)
    ∧ ∀ l ∈ lines, chunkBudget < l.length →
        l ++ ['\n'] ∈ segmentScript lines := by
  constructor
  · constructor
    · intro hmem
      cases lines with
      | nil => simp [segmentScript, segLoop] at hmem
      | cons l ls =>
        refine ⟨l, ls, rfl, ?_⟩
        by_contra hle
        have hgt : ¬ chunkBudget < (([] : List Char) ++ l).length := by
          simpa using hle
        rw [segmentScript] at hmem
        simp only [segLoop, if_neg hgt] at hmem
        exact seg_no_empty ls ([] ++ l ++ ['\n']) (by simp) hmem
    · rintro ⟨l, ls, rfl, hgt⟩
      have hgt2 : chunkBudget < (([] : List Char) ++ l).length := by
        simpa using hgt
      rw [segmentScript]
      simp only [segLoop, if_pos hgt2]
      exact List.mem_cons_self _ _
  · intro l hmem hgt
    exact seg_mem_line_big lines [] l hmem hgt

set_option maxRecDepth 100000 in
/-- C2 witness: on the input whose first line is empty and whose second
line has 801 characters, the oversized line is emitted as its own
segment. -/
theorem claim_C2_witness :
    List.replicate 801 'b' ++ ['\n']
      ∈ segmentScript [[], List.replicate 801 'b'] :=
  (claim_C2 [[], List.replicate 801 'b']).2
    (List.replicate 801 'b') (by decide) (by decide)

set_option maxRecDepth 100000 in
/-- C4, refuted as stated: a segment built from a single line of exactly
800 characters is emitted with its trailing newline, so its rendered
length is 801 > 800 although no line of it exceeds 800 characters. -/
theorem claim_C4_counterexample :
    segmentScript [List.replicate 800 'a', ['b']]
      = [List.replicate 800 'a' ++ ['\n'], ['b', '\n']]
    ∧ (List.replicate 800 'a' ++ ['\n']).length = 801
    ∧ ¬ 800 < (List.replicate 800 'a').length := by
  refine ⟨by decide, by decide, by decide⟩

/-- C4 (amended): every emitted segment has length at most 801 characters
(at most 800 accumulated characters plus the newline re-appended after the
final line), except a segment consisting of a single input line whose own
length exceeds 800 followed by its newline. -/
theorem claim_C4 (lines : List (List Char)) (seg : List Char)
    (hseg : seg ∈ segmentScript lines) :
    seg.length ≤ chunkBudget + 1
    ∨ ∃ l, l ∈ lines ∧ seg = l ++ ['\n'] ∧ chunkBudget < l.length :=
  seg_bound lines [] lines (fun _ hx => hx) (Or.inl (by simp)) seg hseg

set_option maxRecDepth 100000 in
/-- C4 witness at a concrete input. -/
theorem claim_C4_witness :
    (['a', '\n'] : List Char).length ≤ chunkBudget + 1
    ∨ ∃ l, l ∈ [['a']] ∧ (['a', '\n'] : List Char) = l ++ ['\n']
        ∧ chunkBudget < l.length :=
  claim_C4 [['a']] ['a', '\n'] (by decide)

/-- C8, confirmed: concatenating all emitted segments in order reproduces
the segmenter input line-for-line with one newline re-inserted after each
line, i.e. it equals the cleaned dialogue followed by one trailing
newline. -/
theorem claim_C8 (s : List Char) :
    (segmentScript (splitNl (cleanScriptL s))).flatten
      = ((splitNl (cleanScriptL s)).map (fun l => l ++ ['\n'])).flatten
    ∧ (segmentScript (splitNl (cleanScriptL s))).flatten
      = cleanScriptL s ++ ['\n'] := by
  have h1 : (segmentScript (splitNl (cleanScriptL s))).flatten
      = ((splitNl (cleanScriptL s)).map (fun l => l ++ ['\n'])).flatten := by
    rw [segmentScript, seg_join]
    rfl
  refine ⟨h1, ?_⟩
  rw [h1, flatten_map_nl _ (splitNl_ne_nil _), joinNl_splitNl]

/-- C10, confirmed: when the cleaned script is empty the line list is the
single empty line, and the segmenter still emits exactly one segment
consisting of the single newline character, so one synthesis call is
issued. -/
theorem claim_C10 (s : List Char) (h : cleanScriptL s = []) :
    segmentScript (splitNl (cleanScriptL s)) = [['\n']]
    ∧ (segmentScript (splitNl (cleanScriptL s))).length = 1 := by
  rw [h]
  exact ⟨rfl, rfl⟩

/-- C10 witness: a colon-free input is cleaned to the empty string and
still produces the single segment "\n". -/
theorem claim_C10_witness :
    segmentScript (splitNl (cleanScriptL ['h', 'e', 'l', 'l', 'o']))
      = [['\n']]
    ∧ (segmentScript (splitNl (cleanScriptL ['h', 'e', 'l', 'l', 'o']))).length
      = 1 :=
  claim_C10 ['h', 'e', 'l', 'l', 'o'] (by decide)

/-! ## Normalizer idempotence machinery -/

/-- A string with no two adjacent asterisks. -/
def noDoubleStar : List Char → Bool
  | [] => true
  | [_] => true
  | c1 :: c2 :: rest =>
    if c1 = '*' ∧ c2 = '*' then false else noDoubleStar (c2 :: rest)

/-- stripBold acts elementwise past a non-asterisk head. -/
theorem stripBold_cons_ne (c : Char) (l : List Char) (h : c ≠ '*') :
    stripBold (c :: l) = c :: stripBold l := by
  cases l with
  | nil => rfl
  | cons d ds =>
    have : ¬ (c = '*' ∧ d = '*') := fun hb => h hb.1
    simp [stripBold, this]

/-- noDoubleStar only constrains adjacent pairs, so it extends over a safe
head. -/
theorem noDS_cons (c : Char) (l : List Char) (hc : c ≠ '*')
    (hl : noDoubleStar l = true) : noDoubleStar (c :: l) = true := by
  cases l with
  | nil => rfl
  | cons d ds =>
    have : ¬ (c = '*' ∧ d = '*') := fun hb => hc hb.1
    simpa [noDoubleStar, this] using hl

/-- The tail of a noDoubleStar string is noDoubleStar. -/
theorem noDS_tail (c : Char) (l : List Char)
    (h : noDoubleStar (c :: l) = true) : noDoubleStar l = true := by
  cases l with
  | nil => rfl
  | cons d ds =>
    by_cases hb : c = '*' ∧ d = '*'
    · simp [noDoubleStar, hb] at h
    · simpa [noDoubleStar, hb] using h

/-- A prefix of a noDoubleStar string is noDoubleStar. -/
theorem noDS_of_append : ∀ (l1 l2 : List Char),
    noDoubleStar (l1 ++ l2) = true → noDoubleStar l1 = true
  | [], _, _ => rfl
  | [_], _, _ => rfl
  | c1 :: c2 :: ps, l2, h => by
    by_cases hb : c1 = '*' ∧ c2 = '*'
    · rw [List.cons_append, List.cons_append] at h
      simp [noDoubleStar, hb] at h
    · have htail : noDoubleStar ((c2 :: ps) ++ l2) = true := by
        rw [List.cons_append] at h
        exact noDS_tail c1 _ h
      have := noDS_of_append (c2 :: ps) l2 htail
      simpa [noDoubleStar, hb] using this

/-- The global regex replacement of ** by the empty string leaves no
adjacent asterisk pair behind. -/
theorem stripBold_noDS : ∀ (l : List Char), noDoubleStar (stripBold l) = true
  | [] => rfl
  | [_] => rfl
  | c1 :: c2 :: rest => by
    by_cases h : c1 = '*' ∧ c2 = '*'
    · rw [show stripBold (c1 :: c2 :: rest) = stripBold rest from by
        simp [stripBold, h]]
      exact stripBold_noDS rest
    · rw [show stripBold (c1 :: c2 :: rest) = c1 :: stripBold (c2 :: rest) from by
        simp [stripBold, h]]
      by_cases hc1 : c1 = '*'
      · have hc2 : c2 ≠ '*' := fun he => h ⟨hc1, he⟩
        rw [stripBold_cons_ne c2 rest hc2]
        have htl : noDoubleStar (c2 :: stripBold rest) = true := by
          have := stripBold_noDS (c2 :: rest)
          rwa [stripBold_cons_ne c2 rest hc2] at this
        cases hrest : stripBold rest with
        | nil => simp [noDoubleStar, h]
        | cons d ds =>
          rw [hrest] at htl
          simpa [noDoubleStar, h] using htl
      · exact noDS_cons c1 _ hc1 (stripBold_noDS (c2 :: rest))

/-- stripBold is the identity on strings with no adjacent asterisk pair. -/
theorem stripBold_id : ∀ (l : List Char),
    noDoubleStar l = true → stripBold l = l
  | [], _ => rfl
  | [_], _ => rfl
  | c1 :: c2 :: rest, h => by
    have hne : ¬ (c1 = '*' ∧ c2 = '*') := by
      intro hb
      simp [noDoubleStar, hb] at h
    have htail : noDoubleStar (c2 :: rest) = true := by
      simpa [noDoubleStar, hne] using h
    simp [stripBold, hne, stripBold_id (c2 :: rest) htail]

/-- Gluing noDoubleStar pieces with a newline stays noDoubleStar. -/
theorem noDS_append_nl : ∀ (p l : List Char),
    noDoubleStar p = true → noDoubleStar l = true →
    noDoubleStar (p ++ '\n' :: l) = true
  | [], l, _, hl => by
    simpa using noDS_cons '\n' l (by decide) hl
  | [c], l, _, hl => by
    have h1 : noDoubleStar ('\n' :: l) = true := noDS_cons '\n' l (by decide) hl
    have : ¬ (c = '*' ∧ '\n' = '*') := fun hb => by
      have := hb.2
      simp at this
    simpa [noDoubleStar, this] using h1
  | c1 :: c2 :: ps, l, hp, hl => by
    have hne : ¬ (c1 = '*' ∧ c2 = '*') := by
      intro hb
      simp [noDoubleStar, hb] at hp
    have htail : noDoubleStar (c2 :: ps) = true := by
      simpa [noDoubleStar, hne] using hp
    have h2 : noDoubleStar (c2 :: (ps ++ '\n' :: l)) = true :=
      noDS_append_nl (c2 :: ps) l htail hl
    show noDoubleStar (c1 :: c2 :: (ps ++ '\n' :: l)) = true
    simpa [noDoubleStar, hne] using h2

/-- Joining noDoubleStar pieces with newlines stays noDoubleStar. -/
theorem joinNl_noDS : ∀ (ps : List (List Char)),
    (∀ p ∈ ps, noDoubleStar p = true) → noDoubleStar (joinNl ps) = true
  | [], _ => rfl
  | [p], hp => by
    simpa [joinNl] using hp p (List.mem_singleton_self p)
  | p :: q :: qs, hp => by
    rw [show joinNl (p :: q :: qs) = p ++ '\n' :: joinNl (q :: qs) from rfl]
    exact noDS_append_nl p _ (hp p (List.mem_cons_self _ _))
      (joinNl_noDS (q :: qs) (fun r hr => hp r (List.mem_cons_of_mem p hr)))

/-- Every piece of the split of a noDoubleStar string is noDoubleStar. -/
theorem noDS_mem_splitNl : ∀ (x p : List Char),
    noDoubleStar x = true → p ∈ splitNl x → noDoubleStar p = true
  | [], p, _, hp => by
    simp [splitNl] at hp
    subst hp
    rfl
  | c :: rest, p, hx, hp => by
    have hrest : noDoubleStar rest = true := noDS_tail c rest hx
    by_cases h : c = '\n'
    · rw [show splitNl (c :: rest) = [] :: splitNl rest from by
          simp [splitNl, h]] at hp
      rcases List.mem_cons.mp hp with he | hm
      · subst he; rfl
      · exact noDS_mem_splitNl rest p hrest hm
    · cases hr2 : rest with
      | nil =>
        rw [show splitNl (c :: rest) = [[c]] from by
            rw [hr2]; simp [splitNl, h]] at hp
        rw [List.mem_singleton] at hp
        subst hp
        rfl
      | cons r rest2 =>
        have hrest2 : noDoubleStar rest2 = true := by
          rw [hr2] at hrest
          exact noDS_tail r rest2 hrest
        by_cases hr : r = '\n'
        · rw [show splitNl (c :: rest) = [c] :: splitNl rest2 from by
              rw [hr2]; simp [splitNl, h, hr]] at hp
          rcases List.mem_cons.mp hp with he | hm
          · subst he; rfl
          · exact noDS_mem_splitNl rest2 p hrest2 hm
        · cases hq : splitNl rest2 with
          | nil => exact absurd hq (splitNl_ne_nil rest2)
          | cons q qs =>
            rw [show splitNl (c :: rest) = (c :: r :: q) :: qs from by
                rw [hr2]; simp [splitNl, h, hr, hq]] at hp
            rcases List.mem_cons.mp hp with he | hm
            · subst he
              have hpair : ¬ (c = '*' ∧ r = '*') := by
                intro hb
                rw [hr2] at hx
                simp [noDoubleStar, hb] at hx
              have hrq : noDoubleStar (r :: q) = true := by
                refine noDS_mem_splitNl rest (r :: q) hrest ?_
                rw [hr2]
                rw [show splitNl (r :: rest2) = (r :: q) :: qs from by
                    simp [splitNl, hr, hq]]
                exact List.mem_cons_self _ _
              cases q with
              | nil => simp [noDoubleStar, hpair]
              | cons d ds =>
                rw [show noDoubleStar (c :: r :: d :: ds)
                    = noDoubleStar (r :: d :: ds) from by
                    simp [noDoubleStar, hpair]]
                exact hrq
            · refine noDS_mem_splitNl rest p hrest ?_
              rw [hr2]
              rw [show splitNl (r :: rest2) = (r :: q) :: qs from by
                  simp [splitNl, hr, hq]]
              exact List.mem_cons_of_mem _ hm

/-- C9, confirmed: cleanScript is idempotent.  The first pass leaves no
adjacent asterisk pair, its output splits back into exactly the kept
lines, and each kept line still passes the speaker-pattern filter, so a
second pass returns the output unchanged. -/
theorem claim_C9 (t : List Char) :
    cleanScriptL (cleanScriptL t) = cleanScriptL t := by
  by_cases h0 : cleanScriptL t = []
  · rw [h0]
    rfl
  · have ht : t ≠ [] := by
      intro he
      apply h0
      rw [he]
      rfl
    have hu : cleanScriptL t
        = joinNl ((splitNl (stripBold t)).filter
            fun l => speakerLine (jsTrim l)) := by
      simp [cleanScriptL, ht]
    set ps := (splitNl (stripBold t)).filter (fun l => speakerLine (jsTrim l))
      with hps
    have hnonl : ∀ p ∈ ps, '\n' ∉ p := by
      intro p hp
      rw [hps] at hp
      exact splitNl_no_newline _ p (List.mem_of_mem_filter hp)
    have hnoDS : ∀ p ∈ ps, noDoubleStar p = true := by
      intro p hp
      rw [hps] at hp
      exact noDS_mem_splitNl _ p (stripBold_noDS _) (List.mem_of_mem_filter hp)
    have hpred : ∀ p ∈ ps, speakerLine (jsTrim p) = true := by
      intro p hp
      rw [hps] at hp
      have h2 := List.of_mem_filter hp
      exact h2
    have hpsne : ps ≠ [] := by
      intro he
      apply h0
      rw [hu, he]
      rfl
    have hne : joinNl ps ≠ [] := by
      rw [← hu]
      exact h0
    have hsb : stripBold (joinNl ps) = joinNl ps :=
      stripBold_id _ (joinNl_noDS ps hnoDS)
    have hsplit : splitNl (joinNl ps) = ps := splitNl_joinNl ps hpsne hnonl
    have hfilter : ps.filter (fun l => speakerLine (jsTrim l)) = ps :=
      List.filter_eq_self.mpr hpred
    rw [hu]
    simp only [cleanScriptL, if_neg hne, hsb, hsplit, hfilter]

/-! ## Synthesis loop and assembler lemmas -/

/-- The buffers array is empty exactly when every segment failed. -/
theorem collect_nil_iff (l : List SegOutcome) :
    collectBuffers l = [] ↔ ∀ o ∈ l, decodeSegment o = none := by
  induction l with
  | nil => simp [collectBuffers]
  | cons o rest ih =>
    cases hd : decodeSegment o with
    | some samples =>
      simp only [collectBuffers, hd]
      constructor
      · intro h
        exact absurd h (by simp)
      · intro h
        have h2 := h o (List.mem_cons_self _ _)
        rw [hd] at h2
        exact absurd h2 (by simp)
    | none =>
      simp only [collectBuffers, hd]
      rw [ih]
      constructor
      · intro h o2 ho2
        rcases List.mem_cons.mp ho2 with he | hm
        · subst he
          exact hd
        · exact h o2 hm
      · intro h o2 ho2
        exact h o2 (List.mem_cons_of_mem _ ho2)

/-- The reduce computing totalLength is the sum of the buffer lengths. -/
theorem foldl_add_length (bufs : List (List ℚ)) : ∀ (n : Nat),
    bufs.foldl (fun acc b => acc + b.length) n
      = n + (bufs.map List.length).sum := by
  induction bufs with
  | nil => intro n; simp
  | cons b rest ih =>
    intro n
    simp only [List.foldl_cons, List.map_cons, List.sum_cons]
    rw [ih]
    omega

/-- Invariant of the copy loop: after the processed buffers have been
copied in front of the remaining zero fill, folding the rest produces the
prefix followed by the concatenation of the rest. -/
theorem assemble_loop : ∀ (bufs : List (List ℚ)) (pre : List ℚ),
    (bufs.foldl (fun st b => (writeAt st.1 b st.2, st.2 + b.length))
      (pre ++ List.replicate ((bufs.map List.length).sum) 0, pre.length)).1
    = pre ++ bufs.flatten
  | [], pre => by simp
  | b :: rest, pre => by
    simp only [List.foldl_cons, List.map_cons, List.sum_cons]
    have h1 : (pre ++ List.replicate (b.length + (rest.map List.length).sum)
        (0 : ℚ)).take pre.length = pre := List.take_left pre _
    have h2 : (pre ++ List.replicate (b.length + (rest.map List.length).sum)
        (0 : ℚ)).drop (pre.length + b.length)
        = List.replicate ((rest.map List.length).sum) 0 := by
      rw [List.replicate_add, ← List.append_assoc]
      have h3 := List.drop_left (pre ++ List.replicate b.length (0 : ℚ))
        (List.replicate ((rest.map List.length).sum) 0)
      rw [List.length_append, List.length_replicate] at h3
      exact h3
    have hw : writeAt
        (pre ++ List.replicate (b.length + (rest.map List.length).sum) 0)
        b pre.length
        = (pre ++ b) ++ List.replicate ((rest.map List.length).sum) 0 := by
      rw [writeAt, h1, h2, List.append_assoc]
    rw [hw, show pre.length + b.length = (pre ++ b).length from by simp,
      assemble_loop rest (pre ++ b)]
    simp

/-- The assembled track is just the ordered concatenation of the decoded
buffers. -/
theorem assembleTrack_eq_flatten (bufs : List (List ℚ)) :
    assembleTrack bufs = bufs.flatten := by
  show (bufs.foldl (fun st b => (writeAt st.1 b st.2, st.2 + b.length))
    (List.replicate (bufs.foldl (fun acc b => acc + b.length) 0) (0 : ℚ),
      0)).1 = bufs.flatten
  rw [foldl_add_length bufs 0, Nat.zero_add]
  have h := assemble_loop bufs []
  simpa using h

/-! ## Claims about the synthesis loop and assembler -/

/-- C3, confirmed: the pipeline raises its fatal error exactly when no
segment decodes successfully (every per-segment failure is skipped and the
loop proceeds), and as soon as at least one segment succeeds it returns
the track assembled from the successful segments only. -/
theorem claim_C3 (outcomes : List SegOutcome) :
    (runSynthesis outcomes = Except.error "音频合成失败，请重试。"
      ↔ ∀ o ∈ outcomes, decodeSegment o = none)
    ∧ ((∃ o ∈ outcomes, decodeSegment o ≠ none) →
        runSynthesis outcomes
          = Except.ok (assembleTrack (collectBuffers outcomes))) := by
  constructor
  · constructor
    · intro h
      rw [← collect_nil_iff]
      by_contra hne
      simp [runSynthesis, if_neg hne] at h
    · intro h
      have hnil : collectBuffers outcomes = [] := (collect_nil_iff outcomes).mpr h
      simp [runSynthesis, hnil]
  · rintro ⟨o, ho, hne⟩
    have hnn : collectBuffers outcomes ≠ [] := by
      rw [Ne, collect_nil_iff]
      push_neg
      exact ⟨o, ho, hne⟩
    simp [runSynthesis, hnn]

/-- C3 witness: one failed segment and one decodable segment yield the
assembled result of the decodable one. -/
theorem claim_C3_witness :
    runSynthesis [SegOutcome.throwErr, SegOutcome.payload [0, 64]]
      = Except.ok (assembleTrack
          (collectBuffers [SegOutcome.throwErr, SegOutcome.payload [0, 64]])) :=
  (claim_C3 [SegOutcome.throwErr, SegOutcome.payload [0, 64]]).2
    ⟨SegOutcome.payload [0, 64], by decide, by decide⟩

/-- C7, confirmed: a successful run returns a track whose sample length is
the sum of the successfully decoded buffer lengths and whose samples are
their ordered concatenation, failed segments contributing nothing. -/
theorem claim_C7 (outcomes : List SegOutcome) (track : List ℚ)
    (h : runSynthesis outcomes = Except.ok track) :
    track.length = ((collectBuffers outcomes).map List.length).sum
    ∧ track = (collectBuffers outcomes).flatten := by
  by_cases hnil : collectBuffers outcomes = []
  · simp [runSynthesis, hnil] at h
  · simp only [runSynthesis, if_neg hnil, Except.ok.injEq] at h
    rw [← h, assembleTrack_eq_flatten]
    exact ⟨List.length_flatten _, rfl⟩

/-- C7 witness at a concrete outcome list with one failure between two
successes. -/
theorem claim_C7_witness :
    ((bytesToSamples [1, 0, 2, 0] ++ bytesToSamples [3, 0]).length
      = ((collectBuffers [SegOutcome.payload [1, 0, 2, 0], SegOutcome.throwErr,
          SegOutcome.payload [3, 0]]).map List.length).sum)
    ∧ bytesToSamples [1, 0, 2, 0] ++ bytesToSamples [3, 0]
      = (collectBuffers [SegOutcome.payload [1, 0, 2, 0], SegOutcome.throwErr,
          SegOutcome.payload [3, 0]]).flatten :=
  claim_C7 _ _ (by
    simp [runSynthesis, collectBuffers, decodeSegment, assembleTrack_eq_flatten,
      bytesToSamples])

/-! ## Payload decoder lemmas -/

/-- Two bytes become one sample: the decoded sample count is the byte
count divided by two (Int16Array length over the byte buffer). -/
theorem bytesToSamples_length : ∀ (bytes : List Nat),
    (bytesToSamples bytes).length = bytes.length / 2
  | [] => rfl
  | [x] => by simp [bytesToSamples]
  | _ :: _ :: rest => by
    simp only [bytesToSamples, List.length_cons]
    rw [bytesToSamples_length rest]
    omega

/-- Sample i of the decoded buffer is the little-endian int16 at byte
offset 2*i divided by 32768. -/
theorem bytesToSamples_getD : ∀ (bytes : List Nat) (i : Nat),
    2 * i + 1 < bytes.length →
    (bytesToSamples bytes).getD i 0
      = (byteToInt16 (bytes.getD (2 * i) 0) (bytes.getD (2 * i + 1) 0) : ℚ)
        / 32768
  | [], _, h => by simp at h
  | [_], _, h => by
    simp only [List.length_singleton] at h
    omega
  | lo :: hi :: rest, 0, _ => by
    simp [bytesToSamples]
  | lo :: hi :: rest, Nat.succ i, h => by
    have h2 : 2 * i + 1 < rest.length := by
      simp only [List.length_cons] at h
      omega
    have e2 : 2 * (i + 1) + 1 = 2 * i + 1 + 1 + 1 := by ring
    have e1 : 2 * (i + 1) = 2 * i + 1 + 1 := by ring
    rw [e2, e1]
    simp only [bytesToSamples, List.getD_cons_succ]
    exact bytesToSamples_getD rest i h2

/-- A little-endian byte pair decodes to an int16 in [-32768, 32767]. -/
theorem byteToInt16_range (lo hi : Nat) (hlo : lo < 256) (hhi : hi < 256) :
    -32768 ≤ byteToInt16 lo hi ∧ byteToInt16 lo hi ≤ 32767 := by
  simp only [byteToInt16]
  by_cases h : lo + 256 * hi < 32768
  · rw [if_pos h]
    constructor <;> omega
  · rw [if_neg h]
    constructor <;> omega

/-- Every decoded sample lies in [-1, 1]. -/
theorem bytesToSamples_range : ∀ (bytes : List Nat),
    (∀ x ∈ bytes, x < 256) → ∀ s ∈ bytesToSamples bytes, -1 ≤ s ∧ s ≤ 1
  | [], _, s, hs => by simp [bytesToSamples] at hs
  | [_], _, s, hs => by simp [bytesToSamples] at hs
  | lo :: hi :: rest, hb, s, hs => by
    simp only [bytesToSamples, List.mem_cons] at hs
    rcases hs with he | hm
    · subst he
      have hlo : lo < 256 := hb lo (List.mem_cons_self _ _)
      have hhi : hi < 256 :=
        hb hi (List.mem_cons_of_mem _ (List.mem_cons_self _ _))
      obtain ⟨hlb, hub⟩ := byteToInt16_range lo hi hlo hhi
      have hlb2 : (-32768 : ℚ) ≤ (byteToInt16 lo hi : ℚ) := by exact_mod_cast hlb
      have hub2 : (byteToInt16 lo hi : ℚ) ≤ 32767 := by exact_mod_cast hub
      constructor
      · rw [le_div_iff₀ (by norm_num : (0 : ℚ) < 32768)]
        linarith
      · rw [div_le_one (by norm_num : (0 : ℚ) < 32768)]
        linarith
    · exact bytesToSamples_range rest (fun x hx => hb x (by simp [hx])) s hm

/-- At least one full byte pair decodes to at least one sample. -/
theorem bytesToSamples_ne_nil (bytes : List Nat) (h2 : 2 ≤ bytes.length) :
    bytesToSamples bytes ≠ [] := by
  intro he
  have hl := bytesToSamples_length bytes
  rw [he] at hl
  simp only [List.length_nil] at hl
  omega

/-- C6, confirmed: a payload of N little-endian int16 samples decodes to
exactly N float samples, sample i being the int16 at byte offset 2*i
divided by 32768.0, each resulting value lying in [-1, 1]; an even-length
non-empty payload is accepted by the segment decoder with exactly this
sample list. -/
theorem claim_C6 (bytes : List Nat) (hb : ∀ x ∈ bytes, x < 256) :
    (bytesToSamples bytes).length = bytes.length / 2
    ∧ (∀ i : Nat, 2 * i + 1 < bytes.length →
        (bytesToSamples bytes).getD i 0
          = (byteToInt16 (bytes.getD (2 * i) 0) (bytes.getD (2 * i + 1) 0) : ℚ)
            / 32768)
    ∧ (∀ s ∈ bytesToSamples bytes, -1 ≤ s ∧ s ≤ 1)
    ∧ (bytes.length % 2 = 0 → bytes ≠ [] →
        decodeSegment (SegOutcome.payload bytes)
          = some (bytesToSamples bytes)) := by
  refine ⟨bytesToSamples_length bytes,
    fun i hi => bytesToSamples_getD bytes i hi,
    bytesToSamples_range bytes hb,
    fun heven hne => ?_⟩
  have h0 : 0 < bytes.length := List.length_pos.mpr hne
  have hlen : 2 ≤ bytes.length := by omega
  simp only [decodeSegment,
    if_neg (show ¬ bytes.length % 2 ≠ 0 from by omega),
    if_neg (bytesToSamples_ne_nil bytes hlen)]

/-- C6 witness: the four-byte payload [0, 64, 0, 192] decodes to two
samples. -/
theorem claim_C6_witness :
    (bytesToSamples [0, 64, 0, 192]).length = 2 := by
  have h := claim_C6 [0, 64, 0, 192] (by decide)
  simpa using h.1

/-! ## WAV container lemmas -/

/-- One frame of the data writer is two bytes per channel. -/
theorem wavFrame_length : ∀ (chans : List (List ℚ)) (off : Nat),
    (wavFrame chans off).length = 2 * chans.length
  | [], _ => rfl
  | ch :: rest, off => by
    simp only [wavFrame, List.length_append, int16le, u16le, List.length_cons,
      List.length_nil, wavFrame_length rest off, List.length_cons]
    ring

/-- The data writer emits two bytes per channel per frame. -/
theorem wavDataFrom_length : ∀ (k off : Nat) (chans : List (List ℚ)),
    (wavDataFrom chans off k).length = k * (2 * chans.length)
  | 0, _, _ => by simp [wavDataFrom]
  | Nat.succ k, off, chans => by
    simp only [wavDataFrom, List.length_append, wavFrame_length,
      wavDataFrom_length k (off + 1) chans, Nat.succ_eq_add_one]
    ring

/-- The 44-byte header of bufferToWav is followed exactly by the sample
payload. -/
theorem bufferToWav_drop_header (b : AudioBuffer) :
    (bufferToWav b).drop 44 = wavData b.channelsData b.length := rfl

/-- Within one frame, the two bytes at channel offset c encode channel c's
converted sample. -/
theorem wavFrame_extract : ∀ (chans : List (List ℚ)) (off c : Nat),
    c < chans.length →
    ((wavFrame chans off).drop (2 * c)).take 2
      = int16le (sampleToInt16 ((chans.getD c []).getD off 0))
  | [], _, c, hc => by simp at hc
  | ch :: rest, off, 0, _ => by
    simp [wavFrame, int16le, u16le]
  | ch :: rest, off, Nat.succ c, hc => by
    have hc2 : c < rest.length := by
      simp only [List.length_cons] at hc
      omega
    rw [show 2 * (c + 1) = 2 * c + 1 + 1 from by ring]
    rw [show wavFrame (ch :: rest) off
        = int16le (sampleToInt16 (ch.getD off 0)) ++ wavFrame rest off from rfl]
    rw [show int16le (sampleToInt16 (ch.getD off 0)) ++ wavFrame rest off
        = (sampleToInt16 (ch.getD off 0) % 65536).toNat % 256
          :: ((sampleToInt16 (ch.getD off 0) % 65536).toNat / 256 % 256
          :: wavFrame rest off) from rfl]
    rw [List.drop_succ_cons, List.drop_succ_cons]
    rw [List.getD_cons_succ]
    exact wavFrame_extract rest off c hc2

/-- Dropping f whole frames from the data stream lands on frame off+f. -/
theorem wavDataFrom_split : ∀ (frames f off : Nat) (chans : List (List ℚ)),
    f < frames →
    (wavDataFrom chans off frames).drop (2 * chans.length * f)
      = wavFrame chans (off + f)
        ++ wavDataFrom chans (off + f + 1) (frames - (f + 1))
  | 0, f, _, _, hf => by omega
  | Nat.succ k, 0, off, chans, _ => by
    simp [wavDataFrom]
  | Nat.succ k, Nat.succ f, off, chans, hf => by
    have hf2 : f < k := by omega
    have hmul : 2 * chans.length * Nat.succ f
        = 2 * chans.length + 2 * chans.length * f := by
      rw [Nat.succ_eq_add_one, Nat.mul_add, Nat.mul_one]
      omega
    rw [show wavDataFrom chans off (Nat.succ k)
        = wavFrame chans off ++ wavDataFrom chans (off + 1) k from rfl]
    rw [List.drop_append_eq_append_drop]
    rw [List.drop_eq_nil_of_le (by rw [wavFrame_length, hmul]; omega)]
    rw [List.nil_append, wavFrame_length, hmul]
    rw [show 2 * chans.length + 2 * chans.length * f - 2 * chans.length
        = 2 * chans.length * f from by omega]
    rw [wavDataFrom_split k f (off + 1) chans hf2]
    rw [show off + 1 + f = off + Nat.succ f from by omega]
    rw [show k - (f + 1) = Nat.succ k - (Nat.succ f + 1) from by omega]

/-! ## Claims about the WAV container encoder -/

/-- C1, refuted as stated: the JavaScript expression
`0.5 + sample < 0 ? sample * 32768 : sample * 32767` parses as
`(0.5 + sample) < 0`, so the 32768 scale applies only below -0.5.  For the
negative sample -1/4 the code writes the little-endian bytes of
trunc(-1/4 * 32767) = -8191, i.e. [1, 224], while the claimed rule
(negative means multiply by 32768) predicts trunc(-1/4 * 32768) = -8192,
i.e. [0, 224]. -/
theorem claim_C1_counterexample :
    (bufferToWav (AudioBuffer.mk 1 1 24000 [[-(1 : ℚ)/4]])).drop 44 = [1, 224]
    ∧ int16le (truncToZero (clampSample (-(1 : ℚ)/4) * 32768)) = [0, 224]
    ∧ clampSample (-(1 : ℚ)/4) < 0 := by
  have hclamp : clampSample (-(1 : ℚ)/4) = -(1 : ℚ)/4 := by
    rw [clampSample, min_eq_right (by norm_num), max_eq_right (by norm_num)]
  have hcond : ¬ ((1 : ℚ)/2 + clampSample (-(1 : ℚ)/4) < 0) := by
    rw [hclamp]
    norm_num
  have htr : truncToZero (clampSample (-(1 : ℚ)/4) * 32767) = -8191 := by
    rw [hclamp, truncToZero, if_pos (by norm_num)]
    rw [Int.ceil_eq_iff]
    constructor <;> norm_num
  have hs : sampleToInt16 (-(1 : ℚ)/4) = -8191 := by
    simp only [sampleToInt16]
    rw [if_neg hcond, htr]
  have htr2 : truncToZero (clampSample (-(1 : ℚ)/4) * 32768) = -8192 := by
    rw [hclamp, truncToZero, if_pos (by norm_num)]
    rw [Int.ceil_eq_iff]
    constructor <;> norm_num
  refine ⟨?_, ?_, ?_⟩
  · rw [bufferToWav_drop_header]
    show wavFrame [[-(1 : ℚ)/4]] 0 ++ [] = [1, 224]
    rw [List.append_nil]
    show int16le (sampleToInt16 ([-(1 : ℚ)/4].getD 0 0)) ++ [] = [1, 224]
    rw [List.append_nil]
    rw [show ([-(1 : ℚ)/4].getD 0 0) = -(1 : ℚ)/4 from rfl, hs]
    decide
  · rw [htr2]
    decide
  · rw [hclamp]
    norm_num

/-- C1 (amended): each sample is clamped to [-1, 1]; if the clamped sample
is below -0.5 it is scaled by 32768, otherwise by 32767; the product is
truncated toward zero and written little-endian at byte offset
44 + 2*(frame*channels + channel). -/
theorem claim_C1 (b : AudioBuffer)
    (hC : b.channelsData.length = b.numberOfChannels)
    (f c : Nat) (hf : f < b.length) (hc : c < b.numberOfChannels) :
    ((bufferToWav b).drop (44 + 2 * (f * b.numberOfChannels + c))).take 2
      = int16le (sampleToInt16 ((b.channelsData.getD c []).getD f 0))
    ∧ (∀ s : ℚ,
        (clampSample s < -(1/2) →
          sampleToInt16 s = truncToZero (clampSample s * 32768))
        ∧ (-(1/2) ≤ clampSample s →
          sampleToInt16 s = truncToZero (clampSample s * 32767))) := by
  constructor
  · have hcl : c < b.channelsData.length := by
      rw [hC]
      exact hc
    rw [← List.drop_drop, bufferToWav_drop_header, wavData]
    rw [show 2 * (f * b.numberOfChannels + c)
        = 2 * b.channelsData.length * f + 2 * c from by rw [hC]; ring]
    rw [← List.drop_drop]
    rw [wavDataFrom_split b.length f 0 b.channelsData hf]
    rw [List.drop_append_eq_append_drop]
    rw [show 2 * c - (wavFrame b.channelsData (0 + f)).length = 0 from by
      rw [wavFrame_length]
      omega]
    rw [List.drop_zero]
    rw [List.take_append_of_le_length (by
      rw [List.length_drop, wavFrame_length]
      omega)]
    rw [wavFrame_extract b.channelsData (0 + f) c hcl, Nat.zero_add]
  · intro s
    constructor
    · intro h
      simp only [sampleToInt16]
      rw [if_pos (by linarith)]
    · intro h
      simp only [sampleToInt16]
      rw [if_neg (not_lt.mpr (by linarith))]

/-- C1 witness at the one-channel buffer with the single sample 0. -/
theorem claim_C1_witness :
    ((bufferToWav (AudioBuffer.mk 1 1 24000 [[0]])).drop
        (44 + 2 * (0 * 1 + 0))).take 2
      = int16le (sampleToInt16 (([[(0 : ℚ)]].getD 0 []).getD 0 0)) :=
  (claim_C1 (AudioBuffer.mk 1 1 24000 [[0]]) (by decide) 0 0
    (by decide) (by decide)).1

set_option maxHeartbeats 2000000 in
/-- C5, confirmed: the produced byte sequence is exactly
44 + frames*channels*2 bytes, with the ASCII markers RIFF, WAVE, "fmt "
and data at offsets 0, 8, 12 and 36, the RIFF size field holding the total
length minus 8, fmt chunk size 16, PCM format tag 1, the channel count,
sample rate, byte rate, block align and 16 bits per sample, and the data
size field holding frames*channels*2 (the hypotheses rule out 16/32-bit
wraparound of the encoded fields and give the ≥ 1 channel count the data
loop needs to terminate). -/
theorem claim_C5 (b : AudioBuffer)
    (_h1 : 1 ≤ b.numberOfChannels)
    (hC : b.channelsData.length = b.numberOfChannels)
    (_hrate : b.sampleRate * 2 * b.numberOfChannels < 4294967296)
    (_hlen : b.length * b.numberOfChannels * 2 + 44 < 4294967296)
    (_hch : b.numberOfChannels * 2 < 65536) :
    (bufferToWav b).length = 44 + b.length * b.numberOfChannels * 2
    ∧ (bufferToWav b).take 4 = [82, 73, 70, 70]
    ∧ ((bufferToWav b).drop 8).take 4 = [87, 65, 86, 69]
    ∧ ((bufferToWav b).drop 12).take 4 = [102, 109, 116, 32]
    ∧ ((bufferToWav b).drop 36).take 4 = [100, 97, 116, 97]
    ∧ ((bufferToWav b).drop 4).take 4
        = u32le (b.length * b.numberOfChannels * 2 + 44 - 8)
    ∧ ((bufferToWav b).drop 16).take 4 = u32le 16
    ∧ ((bufferToWav b).drop 20).take 2 = u16le 1
    ∧ ((bufferToWav b).drop 22).take 2 = u16le b.numberOfChannels
    ∧ ((bufferToWav b).drop 24).take 4 = u32le b.sampleRate
    ∧ ((bufferToWav b).drop 28).take 4
        = u32le (b.sampleRate * 2 * b.numberOfChannels)
    ∧ ((bufferToWav b).drop 32).take 2 = u16le (b.numberOfChannels * 2)
    ∧ ((bufferToWav b).drop 34).take 2 = u16le 16
    ∧ ((bufferToWav b).drop 40).take 4
        = u32le (b.length * b.numberOfChannels * 2 + 44 - 44) := by
  refine ⟨?_, rfl, rfl, rfl, rfl, rfl, rfl, rfl, rfl, rfl, rfl, rfl, rfl, rfl⟩
  simp only [bufferToWav, u32le, u16le, List.length_append, List.length_cons,
    List.length_nil, wavData]
  rw [wavDataFrom_length, hC]
  ring

/-- C5 witness at a two-frame mono buffer. -/
theorem claim_C5_witness :
    (bufferToWav (AudioBuffer.mk 1 2 24000 [[0, 1/2]])).length = 48 := by
  have h := claim_C5 (AudioBuffer.mk 1 2 24000 [[0, 1/2]]) (by decide)
    (by decide) (by decide) (by decide) (by decide)
  simpa using h.1
